import Mathlib

/-!
Verification of the track data model and derived-quantity engine of
`stormevents/nhc/track.py` (class `VortexTrack`, class `HollandBRelation`, and
the module-level functions `separate_tracks`, `combine_tracks`,
`correct_ofcl_based_on_carq_n_hollandb`).

Modelling conventions (shallow embedding):
* a pandas `DataFrame` of ATCF records is a `List Row`; the row order of the
  list is the frame's index order;
* timestamps are integers (seconds); the dictionary keys produced by
  `separate_tracks` are timestamps formatted to second precision
  (`%Y%m%dT%H%M%S`), a formatting that is injective on integral-second
  timestamps, so keys are modelled by the timestamps themselves;
* nullable float columns are `Option ℚ` with `none` for `NaN`;
* the float `speed` column may hold the IEEE infinity produced by
  `distance / 0.0`, so it is an `Option ExtQ` where `ExtQ` adjoins an
  infinity to `ℚ` (`none` is `NaN`, which is what `pandas.isna` detects);
* external numeric collaborators (pyproj geodesics via `Geod(ellps="WGS84")`,
  shapely polygon algebra, `numpy.exp(1)`) are passed in as explicit function
  parameters: the code under verification treats them as black boxes;
* Python dictionaries are association lists whose insertion preserves the
  position of an existing key (`dictInsert`).
-/

/-- Extended rationals: a finite value or the IEEE positive infinity that
`numpy` produces for `positive / 0.0`.  `NaN` is represented one level up by
`Option ExtQ` (with `none` for `NaN`), matching what `pandas.isna` treats as
missing: infinities are not missing, `NaN` is. -/
inductive ExtQ where
  | inf : ExtQ
  | fin : ℚ → ExtQ
deriving DecidableEq, Repr

/-- One ATCF record (one row of the canonical table), restricted to the
columns that the verified routines read or write. -/
structure Row where
  advisory : String
  datetime : Int
  track_start_time : Int
  forecast_hours : Int
  longitude : ℚ
  latitude : ℚ
  max_sustained_wind_speed : Option ℚ
  central_pressure : Option ℚ
  background_pressure : Option ℚ
  radius_of_maximum_winds : Option ℚ
  isotach_radius : Option ℚ
  isotach_radius_for_NEQ : Option ℚ
  isotach_radius_for_SEQ : Option ℚ
  isotach_radius_for_SWQ : Option ℚ
  isotach_radius_for_NWQ : Option ℚ
  speed : Option ExtQ
  direction : Option ℚ
deriving DecidableEq, Repr, Inhabited

abbrev Table := List Row

/-- Order-of-first-appearance deduplication, the semantics of
`pandas.unique` applied to a column. -/
def uniqueFirst {α : Type} [DecidableEq α] : List α → List α
  | [] => []
  | a :: l => a :: (uniqueFirst l).filter (fun b => b ≠ a)

theorem mem_uniqueFirst {α : Type} [DecidableEq α] (x : α) :
    ∀ (l : List α), x ∈ uniqueFirst l ↔ x ∈ l := by
  intro l
  induction l with
  | nil => simp [uniqueFirst]
  | cons a l ih =>
    rw [uniqueFirst]
    simp only [List.mem_cons]
    constructor
    · rintro (h | h)
      · exact Or.inl h
      · exact Or.inr (ih.mp (List.mem_of_mem_filter h))
    · rintro (h | h)
      · exact Or.inl h
      · by_cases hxa : x = a
        · exact Or.inl hxa
        · exact Or.inr (List.mem_filter.mpr ⟨ih.mpr h, by simpa using hxa⟩)

theorem nodup_uniqueFirst {α : Type} [DecidableEq α] :
    ∀ (l : List α), (uniqueFirst l).Nodup := by
  intro l
  induction l with
  | nil => simp [uniqueFirst]
  | cons a l ih =>
    rw [uniqueFirst]
    refine List.nodup_cons.mpr ⟨?_, List.Nodup.filter _ ih⟩
    intro hmem
    have := List.mem_filter.mp hmem
    simpa using this.2

/-- Stable sort by valid time, the embedding of
`advisory_data.sort_values("datetime")`. -/
def sortByDatetime (t : Table) : Table :=
  t.mergeSort (fun a b => a.datetime ≤ b.datetime)

/-- Rows of one advisory, in the order `separate_tracks` iterates them: the
mask-filtered frame `data[data["advisory"] == advisory]`, additionally sorted
by valid time when the advisory is `BEST`. -/
def advisorySlice (t : Table) (adv : String) : Table :=
  if adv == "BEST" then sortByDatetime (t.filter (fun r => r.advisory == adv))
  else t.filter (fun r => r.advisory == adv)

/-- One track of `separate_tracks`: for `BEST` the whole (sorted) advisory,
otherwise the rows of the advisory sharing the given start time (the
source's `sort_index()` is the identity on a mask-filtered frame, whose
index is already increasing). -/
def trackSlice (t : Table) (adv : String) (ts : Int) : Table :=
  if adv == "BEST" then advisorySlice t adv
  else (advisorySlice t adv).filter (fun r => r.track_start_time == ts)

/-- Embedding of `separate_tracks` (track.py lines 1229-1261): group the rows
by advisory (in order of first appearance, as `pandas.unique` keeps it), and
within each advisory by `track_start_time`. -/
def separate_tracks (t : Table) : List (String × List (Int × Table)) :=
  (uniqueFirst (t.map Row.advisory)).map (fun adv =>
    (adv,
      (uniqueFirst ((advisorySlice t adv).map Row.track_start_time)).map (fun ts =>
        (ts, trackSlice t adv ts))))

/-- Embedding of `combine_tracks` (track.py lines 1264-1272):
`pandas.concat` of every track of every advisory, in dictionary order. -/
def combine_tracks (tracks : List (String × List (Int × Table))) : Table :=
  tracks.flatMap (fun p => p.2.flatMap (fun q => q.2))

/-- Canonical-table invariant from the data model: all `BEST` records share a
single `track_start_time` (the first observation time). -/
def bestSingleStart (t : Table) : Prop :=
  ∀ r1 ∈ t, ∀ r2 ∈ t, r1.advisory = "BEST" → r2.advisory = "BEST" →
    r1.track_start_time = r2.track_start_time

theorem filter_eq_filter_of_ne {α K : Type} [DecidableEq K] (f : α → K)
    {k k' : K} (hkk : k' ≠ k) (l : List α) :
    l.filter (fun x => f x == k') =
      (l.filter (fun x => !(f x == k))).filter (fun x => f x == k') := by
  rw [List.filter_filter]
  refine (List.filter_congr ?_).symm
  intro x _
  by_cases h : f x = k'
  · simp [h, hkk]
  · simp [h]

theorem flatMap_congr_mem {α β : Type} {l : List α} {f g : α → List β}
    (h : ∀ a ∈ l, f a = g a) : l.flatMap f = l.flatMap g := by
  induction l with
  | nil => rfl
  | cons a l ih =>
    simp only [List.flatMap_cons]
    rw [h a (List.mem_cons_self _ _), ih (fun a ha => h a (List.mem_cons_of_mem _ ha))]

theorem flatMap_perm_congr {α β : Type} {l : List α} {f g : α → List β}
    (h : ∀ a ∈ l, (f a).Perm (g a)) : (l.flatMap f).Perm (l.flatMap g) := by
  induction l with
  | nil => exact List.Perm.refl _
  | cons a l ih =>
    simp only [List.flatMap_cons]
    exact (h a (List.mem_cons_self _ _)).append
      (ih (fun a ha => h a (List.mem_cons_of_mem _ ha)))

/-- Joining the groups of a grouping whose keys are duplicate-free and cover
every element recovers the original list up to permutation. -/
theorem groupJoin_perm {α K : Type} [DecidableEq K] (f : α → K) :
    ∀ (keys : List K) (l : List α), keys.Nodup → (∀ x ∈ l, f x ∈ keys) →
      (keys.flatMap (fun k => l.filter (fun x => f x == k))).Perm l := by
  intro keys
  induction keys with
  | nil =>
    intro l _ hcov
    have : l = [] := List.eq_nil_iff_forall_not_mem.mpr (fun x hx => by simpa using hcov x hx)
    simp [this]
  | cons k ks ih =>
    intro l hnodup hcov
    have hk : k ∉ ks := (List.nodup_cons.mp hnodup).1
    have hks : ks.Nodup := (List.nodup_cons.mp hnodup).2
    rw [List.flatMap_cons]
    have hrest :
        ks.flatMap (fun k' => l.filter (fun x => f x == k')) =
        ks.flatMap (fun k' => (l.filter (fun x => !(f x == k))).filter (fun x => f x == k')) := by
      refine flatMap_congr_mem ?_
      intro k' hk'
      exact filter_eq_filter_of_ne f (fun h => hk (by simpa [h] using hk')) l
    rw [hrest]
    have hcov' : ∀ x ∈ l.filter (fun x => !(f x == k)), f x ∈ ks := by
      intro x hx
      have hmem := List.mem_filter.mp hx
      have := hcov x hmem.1
      rcases List.mem_cons.mp this with h | h
      · exfalso; revert hmem; simp [h]
      · exact h
    have hperm := ih (l.filter (fun x => !(f x == k))) hks hcov'
    exact (List.Perm.append (List.Perm.refl _) hperm).trans (List.filter_append_perm _ l)

theorem uniqueFirst_const {α : Type} [DecidableEq α] {l : List α} {c : α}
    (hne : l ≠ []) (hall : ∀ x ∈ l, x = c) : uniqueFirst l = [c] := by
  match l, hne with
  | a :: l, _ =>
    have ha : a = c := hall a (List.mem_cons_self _ _)
    rw [uniqueFirst]
    have : (uniqueFirst l).filter (fun b => b ≠ a) = [] := by
      apply List.eq_nil_iff_forall_not_mem.mpr
      intro x hx
      have h := List.mem_filter.mp hx
      have : x = c := hall x (List.mem_cons_of_mem _ ((mem_uniqueFirst x l).mp h.1))
      revert h
      simp [this, ha]
    rw [this, ha]

theorem flatMap_map_pair {α β γ : Type} (l : List α) (f : α → β) (g : β → List γ) :
    (l.map f).flatMap g = l.flatMap (fun x => g (f x)) := by
  induction l with
  | nil => rfl
  | cons a l ih => simp only [List.map_cons, List.flatMap_cons, ih]

theorem advisorySlice_perm (t : Table) (adv : String) :
    (advisorySlice t adv).Perm (t.filter (fun r => r.advisory == adv)) := by
  unfold advisorySlice
  by_cases h : adv = "BEST"
  · subst h
    rw [if_pos (by decide)]
    exact List.mergeSort_perm _ _
  · rw [if_neg (by simpa using h)]

theorem advisory_join_perm (t : Table) (adv : String)
    (hb : adv = "BEST" →
      (t.filter (fun r => r.advisory == adv)) ≠ [] ∧
      ∀ r1 ∈ t.filter (fun r => r.advisory == adv),
        ∀ r2 ∈ t.filter (fun r => r.advisory == adv),
          r1.track_start_time = r2.track_start_time) :
    ((uniqueFirst ((advisorySlice t adv).map Row.track_start_time)).flatMap
      (fun ts => trackSlice t adv ts)).Perm (t.filter (fun r => r.advisory == adv)) := by
  by_cases h : adv = "BEST"
  · -- the whole sorted advisory is one track; it has a single start time
    obtain ⟨hne, hone⟩ := hb h
    have hslice := advisorySlice_perm t adv
    have hsne : advisorySlice t adv ≠ [] := by
      intro hnil
      apply hne
      have h0 : ([] : Table).Perm (t.filter (fun r => r.advisory == adv)) := hnil ▸ hslice
      exact List.Perm.eq_nil h0.symm
    obtain ⟨r0, hr0⟩ := List.exists_mem_of_ne_nil _ hsne
    have hconst : ∀ x ∈ (advisorySlice t adv).map Row.track_start_time,
        x = r0.track_start_time := by
      intro x hx
      obtain ⟨r, hr, hrx⟩ := List.mem_map.mp hx
      have hr' : r ∈ t.filter (fun r => r.advisory == adv) := hslice.mem_iff.mp hr
      have hr0' : r0 ∈ t.filter (fun r => r.advisory == adv) := hslice.mem_iff.mp hr0
      exact hrx ▸ hone r hr' r0 hr0'
    have hmapne : (advisorySlice t adv).map Row.track_start_time ≠ [] := by
      simpa using hsne
    rw [uniqueFirst_const hmapne hconst]
    simp only [List.flatMap_cons, List.flatMap_nil, List.append_nil]
    unfold trackSlice
    rw [if_pos (by simpa using h)]
    exact hslice
  · -- every other advisory is partitioned by start time
    have hsl : advisorySlice t adv = t.filter (fun r => r.advisory == adv) := by
      unfold advisorySlice
      rw [if_neg (by simpa using h)]
    have htr : ∀ ts, trackSlice t adv ts =
        (t.filter (fun r => r.advisory == adv)).filter
          (fun r => r.track_start_time == ts) := by
      intro ts
      unfold trackSlice
      rw [if_neg (by simpa using h), hsl]
    rw [hsl]
    have := groupJoin_perm Row.track_start_time
      (uniqueFirst ((t.filter (fun r => r.advisory == adv)).map Row.track_start_time))
      (t.filter (fun r => r.advisory == adv))
      (nodup_uniqueFirst _)
      (fun x hx => (mem_uniqueFirst _ _).mpr (List.mem_map_of_mem _ hx))
    refine List.Perm.trans ?_ this
    apply List.Perm.of_eq
    exact flatMap_congr_mem (fun ts _ => htr ts)

/-- C1. Partition/recombine round-trip: for every canonical table (the
canonical-table invariant being that all `BEST` rows share one
`track_start_time`), `combine_tracks (separate_tracks T)` holds exactly the
rows of `T` as a multiset — no row dropped or duplicated, order possibly
different. -/
theorem C1_combine_separate_roundtrip (t : Table) (hbest : bestSingleStart t) :
    (↑(combine_tracks (separate_tracks t)) : Multiset Row) = (↑t : Multiset Row) := by
  rw [Multiset.coe_eq_coe]
  unfold combine_tracks separate_tracks
  rw [flatMap_map_pair]
  simp only
  have step1 : ∀ adv ∈ uniqueFirst (t.map Row.advisory),
      (((uniqueFirst ((advisorySlice t adv).map Row.track_start_time)).map
          (fun ts => (ts, trackSlice t adv ts))).flatMap (fun q => q.2)).Perm
        (t.filter (fun r => r.advisory == adv)) := by
    intro adv hadv
    rw [flatMap_map_pair]
    refine advisory_join_perm t adv ?_
    intro hBest
    constructor
    · obtain ⟨r, hr, hradv⟩ := List.mem_map.mp ((mem_uniqueFirst _ _).mp hadv)
      intro hnil
      have : r ∈ t.filter (fun r' => r'.advisory == adv) :=
        List.mem_filter.mpr ⟨hr, by simpa using hradv⟩
      rw [hnil] at this
      exact (List.not_mem_nil r) this
    · intro r1 h1 r2 h2
      have h1' := List.mem_filter.mp h1
      have h2' := List.mem_filter.mp h2
      exact hbest r1 h1'.1 r2 h2'.1
        (by have := h1'.2; rw [hBest] at this; simpa using this)
        (by have := h2'.2; rw [hBest] at this; simpa using this)
  refine List.Perm.trans (flatMap_perm_congr step1) ?_
  exact groupJoin_perm Row.advisory _ t (nodup_uniqueFirst _)
    (fun x hx => (mem_uniqueFirst _ _).mpr (List.mem_map_of_mem _ hx))

/-- Helper building a record with given advisory, valid time, start time and
lead hour; the remaining columns get neutral values. -/
def mkRow (adv : String) (dt ts fh : Int) : Row :=
  { advisory := adv, datetime := dt, track_start_time := ts, forecast_hours := fh,
    longitude := 0, latitude := 0,
    max_sustained_wind_speed := none, central_pressure := none,
    background_pressure := none, radius_of_maximum_winds := none,
    isotach_radius := none,
    isotach_radius_for_NEQ := none, isotach_radius_for_SEQ := none,
    isotach_radius_for_SWQ := none, isotach_radius_for_NWQ := none,
    speed := none, direction := none }

/-- Concrete multi-advisory, multi-cycle table exercising the round-trip:
one `BEST` hindcast (single start time) plus two `OFCL` forecast cycles. -/
def C1exTable : Table :=
  [mkRow "BEST" 0 0 0, mkRow "BEST" 21600 0 0,
   mkRow "OFCL" 0 0 0, mkRow "OFCL" 21600 0 6,
   mkRow "OFCL" 21600 21600 0, mkRow "OFCL" 43200 21600 6]

theorem C1_roundtrip_witness :
    bestSingleStart C1exTable ∧
    (↑(combine_tracks (separate_tracks C1exTable)) : Multiset Row) =
      (↑C1exTable : Multiset Row) :=
  ⟨by unfold bestSingleStart; decide,
   C1_combine_separate_roundtrip C1exTable (by unfold bestSingleStart; decide)⟩

/-- Python/numpy float modulo by 360: result lies in `[0, 360)` for every
finite operand (the sign follows the divisor). -/
def qmod360 (q : ℚ) : ℚ := q - 360 * ⌊q / 360⌋

theorem qmod360_nonneg (q : ℚ) : 0 ≤ qmod360 q := by
  have h : qmod360 q = 360 * Int.fract (q / 360) := by
    unfold qmod360 Int.fract
    ring
  rw [h]
  have := Int.fract_nonneg (q / 360)
  linarith

theorem qmod360_lt (q : ℚ) : qmod360 q < 360 := by
  have h : qmod360 q = 360 * Int.fract (q / 360) := by
    unfold qmod360 Int.fract
    ring
  rw [h]
  have := Int.fract_lt_one (q / 360)
  linarith

/-- Results of the external geodesic inverse problem,
`Geod(ellps="WGS84").inv(lon1, lat1, lon2, lat2)`: forward azimuth at the
first point, azimuth at the second point, and the geodesic distance.  pyproj
is a black-box collaborator; the verification is parametric in it. -/
structure GeodInv where
  fwdAz : ℚ × ℚ → ℚ × ℚ → ℚ
  invAz : ℚ × ℚ → ℚ × ℚ → ℚ
  dist : ℚ × ℚ → ℚ × ℚ → ℚ

/-- Forward fill with a running last-seen value, the semantics of
`Series.ffill`. -/
def ffillGo {α : Type} (last : Option α) : List (Option α) → List (Option α)
  | [] => []
  | none :: rest => last :: ffillGo last rest
  | some a :: rest => some a :: ffillGo (some a) rest

def ffill {α : Type} (l : List (Option α)) : List (Option α) := ffillGo none l

/-- Backward fill, the semantics of `Series.bfill`. -/
def bfill {α : Type} (l : List (Option α)) : List (Option α) :=
  (ffill l.reverse).reverse

/-- The fill sequence applied by `__compute_velocity`: forward fill, then
backward fill. -/
def fbfill {α : Type} (l : List (Option α)) : List (Option α) := bfill (ffill l)

theorem length_ffillGo {α : Type} (last : Option α) :
    ∀ l : List (Option α), (ffillGo last l).length = l.length := by
  intro l
  induction l generalizing last with
  | nil => rfl
  | cons a rest ih =>
    cases a with
    | none => simp [ffillGo, ih]
    | some a => simp [ffillGo, ih]

theorem length_fbfill {α : Type} (l : List (Option α)) :
    (fbfill l).length = l.length := by
  unfold fbfill bfill ffill
  simp [length_ffillGo]

theorem mem_ffillGo_some {α : Type} (last : Option α) (x : α) :
    ∀ l : List (Option α), some x ∈ ffillGo last l → some x ∈ l ∨ last = some x := by
  intro l
  induction l generalizing last with
  | nil => intro h; exact absurd h (List.not_mem_nil _)
  | cons a rest ih =>
    cases a with
    | none =>
      intro h
      rcases List.mem_cons.mp h with h | h
      · exact Or.inr h.symm
      · rcases ih last h with h | h
        · exact Or.inl (List.mem_cons_of_mem _ h)
        · exact Or.inr h
    | some a =>
      intro h
      rcases List.mem_cons.mp h with h | h
      · exact Or.inl (h ▸ List.mem_cons_self _ _)
      · rcases ih (some a) h with h | h
        · exact Or.inl (List.mem_cons_of_mem _ h)
        · exact Or.inl (by rw [← h]; exact List.mem_cons_self _ _)

theorem some_mem_ffillGo {α : Type} (last : Option α) (x : α) :
    ∀ l : List (Option α), some x ∈ l → some x ∈ ffillGo last l := by
  intro l
  induction l generalizing last with
  | nil => intro h; exact absurd h (List.not_mem_nil _)
  | cons a rest ih =>
    cases a with
    | none =>
      intro h
      rcases List.mem_cons.mp h with h | h
      · exact absurd h.symm (by simp)
      · exact List.mem_cons_of_mem _ (ih last h)
    | some a =>
      intro h
      rcases List.mem_cons.mp h with h | h
      · exact h ▸ List.mem_cons_self _ _
      · exact List.mem_cons_of_mem _ (ih (some a) h)

theorem mem_fbfill_some {α : Type} (x : α) (l : List (Option α)) :
    some x ∈ fbfill l → some x ∈ l := by
  unfold fbfill bfill ffill
  intro h
  have h1 := List.mem_reverse.mp h
  rcases mem_ffillGo_some none x _ h1 with h2 | h2
  · have h3 := List.mem_reverse.mp h2
    rcases mem_ffillGo_some none x _ h3 with h4 | h4
    · exact h4
    · exact absurd h4 (by simp)
  · exact absurd h2 (by simp)

theorem allSome_ffillGo {α : Type} (last : Option α) (hlast : last ≠ none) :
    ∀ l : List (Option α), ∀ y ∈ ffillGo last l, y ≠ none := by
  intro l
  induction l generalizing last with
  | nil => intro y h; exact absurd h (List.not_mem_nil _)
  | cons a rest ih =>
    cases a with
    | none =>
      intro y h
      rcases List.mem_cons.mp h with h | h
      · exact h ▸ hlast
      · exact ih last hlast y h
    | some a =>
      intro y h
      rcases List.mem_cons.mp h with h | h
      · simp [h]
      · exact ih (some a) (by simp) y h

/-- Forward fill turns a list into an all-`none` prefix followed by an
all-`some` suffix containing every original `some`. -/
theorem ffill_structure {α : Type} :
    ∀ l : List (Option α), ∃ k : Nat, ∃ s : List (Option α),
      ffillGo none l = List.replicate k none ++ s ∧
      (∀ y ∈ s, y ≠ none) ∧ (∀ x : α, some x ∈ l → some x ∈ s) := by
  intro l
  induction l with
  | nil => exact ⟨0, [], rfl, by simp, by simp⟩
  | cons a rest ih =>
    cases a with
    | none =>
      obtain ⟨k, s, heq, hs, hmem⟩ := ih
      refine ⟨k + 1, s, ?_, hs, ?_⟩
      · simp only [ffillGo, heq, List.replicate_succ, List.cons_append]
      · intro x hx
        rcases List.mem_cons.mp hx with h | h
        · exact absurd h.symm (by simp)
        · exact hmem x h
    | some a =>
      refine ⟨0, some a :: ffillGo (some a) rest, rfl, ?_, ?_⟩
      · intro y hy
        rcases List.mem_cons.mp hy with h | h
        · simp [h]
        · exact allSome_ffillGo (some a) (by simp) rest y h
      · intro x hx
        rcases List.mem_cons.mp hx with h | h
        · exact h ▸ List.mem_cons_self _ _
        · exact List.mem_cons_of_mem _ (some_mem_ffillGo (some a) x rest h)

/-- A forward fill followed by a backward fill leaves no missing value as
soon as the list holds at least one present value. -/
theorem fbfill_allSome {α : Type} (l : List (Option α)) (x : α)
    (hx : some x ∈ l) : ∀ y ∈ fbfill l, y ≠ none := by
  obtain ⟨k, s, heq, hs, hmem⟩ := ffill_structure l
  have hxs : some x ∈ s := hmem x hx
  have hsne : s ≠ [] := fun h => absurd (h ▸ hxs) (List.not_mem_nil _)
  unfold fbfill bfill ffill
  rw [heq]
  intro y hy
  have hy1 := List.mem_reverse.mp hy
  rw [List.reverse_append, List.reverse_replicate] at hy1
  obtain ⟨b, srest, hsrev⟩ : ∃ b srest, s.reverse = b :: srest := by
    cases hsrev : s.reverse with
    | nil => exact absurd (List.reverse_eq_nil_iff.mp hsrev) hsne
    | cons b srest => exact ⟨b, srest, rfl⟩
  have hbne : b ≠ none := by
    have : b ∈ s.reverse := hsrev ▸ List.mem_cons_self _ _
    exact hs b (List.mem_reverse.mp this)
  obtain ⟨v, hv⟩ := Option.ne_none_iff_exists'.mp hbne
  rw [hsrev, hv, List.cons_append] at hy1
  have : ∀ z ∈ ffillGo none (some v :: (srest ++ List.replicate k none)), z ≠ none := by
    intro z hz
    rcases List.mem_cons.mp (by simpa [ffillGo] using hz) with h | h
    · simp [h]
    · exact allSome_ffillGo (some v) (by simp) _ z h
  exact this y hy1

/-- Reference-predecessor selection of `VortexTrack.__compute_velocity`
(track.py lines 1102-1120) over the valid times of one advisory slice: the
default predecessor of position `c` is `c - 1` (`numpy.roll(indices, 1)` with
the first entry reset to itself); when the default predecessor's valid time
lies after the current one (a forecast-cycle restart), the predecessor
becomes the last position whose valid time is strictly earlier, or, if no
earlier time exists anywhere in the advisory, the first position whose valid
time is strictly later. -/
def correctedPred (dts : List Int) (c : Nat) : Nat :=
  let base := if c = 0 then 0 else c - 1
  let tc := dts.getD c 0
  let tshift := dts.getD base 0
  if tc < tshift then
    if (dts.filter (fun d => decide (d < tc))).length = 0 then
      dts.findIdx (fun d => decide (tc < d))
    else
      dts.length - 1 - dts.reverse.findIdx (fun d => decide (d < tc))
  else base


/-- Speed and bearing of one record before filling, the per-position body of
`VortexTrack.__compute_velocity` (track.py lines 1122-1143): speed is
`distance / abs(interval)` with IEEE conventions (`0.0 / 0.0` is `NaN`, here
`none`; `positive / 0.0` is the infinity `ExtQ.inf`); the bearing is the
pyproj azimuth modulo 360 — the azimuth at the second point for
forward-in-time pairs, the forward azimuth for negative intervals — and is
erased wherever the raw speed is `NaN`
(`bearings[pandas.isna(speeds)] = numpy.nan`). -/
def rawVelocity (g : GeodInv) (l : List Row) (c : Nat) : Option ExtQ × Option ℚ :=
  let rc := l.getD c default
  let rp := l.getD (correctedPred (l.map Row.datetime) c) default
  let pc := (rc.longitude, rc.latitude)
  let pp := (rp.longitude, rp.latitude)
  let itv : Int := rc.datetime - rp.datetime
  let d := g.dist pc pp
  let sp : Option ExtQ :=
    if itv = 0 then (if d = 0 then none else some ExtQ.inf)
    else some (ExtQ.fin (d / |(itv : ℚ)|))
  let az := if itv < 0 then g.fwdAz pc pp else g.invAz pc pp
  (sp, if sp = none then none else some (qmod360 az))

/-- Embedding of `VortexTrack.__compute_velocity` (track.py lines 1095-1156)
restricted to one advisory slice (the source loops this body over
`pandas.unique(data["advisory"])`, each slice being processed
independently): raw speeds and bearings per position, then both series are
forward-filled and backward-filled, and written onto the rows. -/
def computeVelocityAdvisory (g : GeodInv) (l : List Row) : List Row :=
  (List.range l.length).map (fun c =>
    { l.getD c default with
        speed :=
          (fbfill (((List.range l.length).map (rawVelocity g l)).map Prod.fst)).getD c none,
        direction :=
          (fbfill (((List.range l.length).map (rawVelocity g l)).map Prod.snd)).getD c none })

/-- Nonnegativity over the extended rationals (`inf` counts as nonnegative,
as the IEEE infinity does). -/
def extQNonneg : ExtQ → Prop
  | ExtQ.inf => True
  | ExtQ.fin q => 0 ≤ q

theorem datetime_getD (l : List Row) (i : Nat) :
    (l.map Row.datetime).getD i 0 = (l.getD i default).datetime := by
  by_cases h : i < l.length
  · rw [List.getD_eq_getElem _ _ (by simpa using h), List.getD_eq_getElem _ _ h,
      List.getElem_map]
  · rw [List.getD_eq_default _ _ (by simpa using Nat.le_of_not_lt h),
      List.getD_eq_default _ _ (Nat.le_of_not_lt h)]
    rfl

/-- In an advisory whose valid times are not all equal, some position has a
reference predecessor with a strictly different valid time. -/
theorem exists_pred_time_ne (dts : List Int)
    (h : ∃ i, ∃ j, ∃ (hi : i < dts.length) (hj : j < dts.length), dts[i] ≠ dts[j]) :
    ∃ c, c < dts.length ∧ dts.getD (correctedPred dts c) 0 ≠ dts.getD c 0 := by
  by_contra hcon
  push_neg at hcon
  have hall : ∀ c, c < dts.length → dts.getD (correctedPred dts c) 0 = dts.getD c 0 :=
    fun c hc => hcon c hc
  have hmono : ∀ c, c + 1 < dts.length → dts.getD c 0 = dts.getD (c + 1) 0 := by
    intro c hc
    have hc' : c < dts.length := Nat.lt_of_succ_lt hc
    have heq := hall (c + 1) hc
    unfold correctedPred at heq
    simp only [Nat.succ_ne_zero, if_false, Nat.add_sub_cancel] at heq
    by_cases hlt : dts.getD (c + 1) 0 < dts.getD c 0
    · rw [if_pos hlt] at heq
      set tc := dts.getD (c + 1) 0 with htc
      by_cases hemp : (dts.filter (fun d => decide (d < tc))).length = 0
      · rw [if_pos hemp] at heq
        have hex : ∃ x ∈ dts, (fun d => decide (tc < d)) x = true := by
          refine ⟨dts.getD c 0, ?_, by simpa using hlt⟩
          rw [List.getD_eq_getElem _ _ hc']
          exact List.getElem_mem hc'
        have hidx : dts.findIdx (fun d => decide (tc < d)) < dts.length :=
          List.findIdx_lt_length.mpr hex
        have hprop := @List.findIdx_getElem _ (fun d => decide (tc < d)) dts hidx
        rw [List.getD_eq_getElem _ _ hidx] at heq
        simp only [decide_eq_true_eq] at hprop
        omega
      · rw [if_neg hemp] at heq
        have hex : ∃ x ∈ dts.reverse, (fun d => decide (d < tc)) x = true := by
          have : ∃ x ∈ dts, x < tc := by
            rcases List.length_pos.mp (Nat.pos_of_ne_zero hemp) with hne
            obtain ⟨x, hx⟩ := List.exists_mem_of_ne_nil _ hne
            have := List.mem_filter.mp hx
            exact ⟨x, this.1, by simpa using this.2⟩
          obtain ⟨x, hx, hxlt⟩ := this
          exact ⟨x, List.mem_reverse.mpr hx, by simpa using hxlt⟩
        have hidx : dts.reverse.findIdx (fun d => decide (d < tc)) < dts.reverse.length :=
          List.findIdx_lt_length.mpr hex
        have hprop := @List.findIdx_getElem _ (fun d => decide (d < tc)) dts.reverse hidx
        rw [List.getElem_reverse] at hprop
        simp only [decide_eq_true_eq] at hprop
        have hidx' : dts.length - 1 - dts.reverse.findIdx (fun d => decide (d < tc))
            < dts.length := by
          rw [List.length_reverse] at hidx
          omega
        rw [List.getD_eq_getElem _ _ hidx'] at heq
        omega
    · rw [if_neg hlt] at heq
      rw [List.getD_eq_getElem _ _ hc', List.getD_eq_getElem _ _ hc] at heq ⊢
      omega
  have hconst : ∀ c, c < dts.length → dts.getD c 0 = dts.getD 0 0 := by
    intro c
    induction c with
    | zero => intro _; rfl
    | succ c ih =>
      intro hc
      rw [← hmono c hc]
      exact ih (Nat.lt_of_succ_lt hc)
  obtain ⟨i, j, hi, hj, hij⟩ := h
  apply hij
  rw [← List.getD_eq_getElem dts 0 hi, ← List.getD_eq_getElem dts 0 hj,
    hconst i hi, hconst j hj]

theorem rawVelocity_fst_some (g : GeodInv) (l : List Row) (c : Nat)
    (hitv : (l.getD c default).datetime -
      (l.getD (correctedPred (l.map Row.datetime) c) default).datetime ≠ 0) :
    ∃ v, (rawVelocity g l c).1 = some v := by
  unfold rawVelocity
  simp only
  rw [if_neg hitv]
  exact ⟨_, rfl⟩

theorem rawVelocity_snd_some (g : GeodInv) (l : List Row) (c : Nat)
    (hitv : (l.getD c default).datetime -
      (l.getD (correctedPred (l.map Row.datetime) c) default).datetime ≠ 0) :
    ∃ b, (rawVelocity g l c).2 = some b := by
  unfold rawVelocity
  simp only
  rw [if_neg hitv]
  simp only [reduceCtorEq, if_neg]
  exact ⟨_, rfl⟩

theorem rawVelocity_fst_nonneg (g : GeodInv)
    (hd : ∀ p q : ℚ × ℚ, 0 ≤ g.dist p q) (l : List Row) (c : Nat) (v : ExtQ)
    (hv : (rawVelocity g l c).1 = some v) : extQNonneg v := by
  unfold rawVelocity at hv
  simp only at hv
  by_cases hz : ((l.getD c default).datetime -
      (l.getD (correctedPred (l.map Row.datetime) c) default).datetime : Int) = 0
  · rw [if_pos hz] at hv
    by_cases hd0 : g.dist
        ((l.getD c default).longitude, (l.getD c default).latitude)
        ((l.getD (correctedPred (l.map Row.datetime) c) default).longitude,
         (l.getD (correctedPred (l.map Row.datetime) c) default).latitude) = 0
    · rw [if_pos hd0] at hv
      exact absurd hv (by simp)
    · rw [if_neg hd0] at hv
      rw [← Option.some.inj hv]
      trivial
  · rw [if_neg hz] at hv
    rw [← Option.some.inj hv]
    exact div_nonneg (hd _ _) (abs_nonneg _)

theorem rawVelocity_snd_range (g : GeodInv) (l : List Row) (c : Nat) (b : ℚ)
    (hb : (rawVelocity g l c).2 = some b) : 0 ≤ b ∧ b < 360 := by
  unfold rawVelocity at hb
  simp only at hb
  by_cases hnone : (if ((l.getD c default).datetime -
        (l.getD (correctedPred (l.map Row.datetime) c) default).datetime : Int) = 0 then
        (if g.dist ((l.getD c default).longitude, (l.getD c default).latitude)
            ((l.getD (correctedPred (l.map Row.datetime) c) default).longitude,
             (l.getD (correctedPred (l.map Row.datetime) c) default).latitude) = 0
         then (none : Option ExtQ) else some ExtQ.inf)
      else some (ExtQ.fin (g.dist
            ((l.getD c default).longitude, (l.getD c default).latitude)
            ((l.getD (correctedPred (l.map Row.datetime) c) default).longitude,
             (l.getD (correctedPred (l.map Row.datetime) c) default).latitude) /
          |(((l.getD c default).datetime -
             (l.getD (correctedPred (l.map Row.datetime) c) default).datetime : Int) : ℚ)|))) =
      none
  · rw [if_pos hnone] at hb
    exact absurd hb (by simp)
  · rw [if_neg hnone] at hb
    rw [← Option.some.inj hb]
    exact ⟨qmod360_nonneg _, qmod360_lt _⟩

/-- C2 (amended).  After the velocity estimator runs on an advisory slice
holding at least two distinct valid times, every record carries a non-null
speed that is nonnegative (possibly the infinity arising from records that
share a valid time but not a position) and a non-null direction in
`[0, 360)`.  The geodesic hypothesis is the pyproj guarantee that
inverse-problem distances are nonnegative. -/
theorem C2_velocity_bounds_amended (g : GeodInv)
    (hd : ∀ p q : ℚ × ℚ, 0 ≤ g.dist p q) (l : List Row)
    (hne : ∃ r1 ∈ l, ∃ r2 ∈ l, r1.datetime ≠ r2.datetime) :
    ∀ r ∈ computeVelocityAdvisory g l,
      (∃ v, r.speed = some v ∧ extQNonneg v) ∧
      (∃ b, r.direction = some b ∧ 0 ≤ b ∧ b < 360) := by
  intro r hr
  unfold computeVelocityAdvisory at hr
  simp only [List.mem_map, List.mem_range] at hr
  obtain ⟨c, hc, hrdef⟩ := hr
  obtain ⟨c0, hc0, hc0ne⟩ := exists_pred_time_ne (l.map Row.datetime) (by
    obtain ⟨r1, h1, r2, h2, h12⟩ := hne
    obtain ⟨i, hi, hieq⟩ := List.mem_iff_getElem.mp h1
    obtain ⟨j, hj, hjeq⟩ := List.mem_iff_getElem.mp h2
    refine ⟨i, j, by simpa using hi, by simpa using hj, ?_⟩
    rw [List.getElem_map, List.getElem_map, hieq, hjeq]
    exact h12)
  have hc0l : c0 < l.length := by simpa using hc0
  have hitv : (l.getD c0 default).datetime -
      (l.getD (correctedPred (l.map Row.datetime) c0) default).datetime ≠ 0 := by
    have h1 := datetime_getD l c0
    have h2 := datetime_getD l (correctedPred (l.map Row.datetime) c0)
    omega
  obtain ⟨v0, hv0⟩ := rawVelocity_fst_some g l c0 hitv
  obtain ⟨b0, hb0⟩ := rawVelocity_snd_some g l c0 hitv
  have hv0mem : some v0 ∈ ((List.range l.length).map (rawVelocity g l)).map Prod.fst := by
    rw [List.map_map]
    have : (Prod.fst ∘ rawVelocity g l) c0 = some v0 := hv0
    exact this ▸ List.mem_map_of_mem _ (List.mem_range.mpr hc0l)
  have hb0mem : some b0 ∈ ((List.range l.length).map (rawVelocity g l)).map Prod.snd := by
    rw [List.map_map]
    have : (Prod.snd ∘ rawVelocity g l) c0 = some b0 := hb0
    exact this ▸ List.mem_map_of_mem _ (List.mem_range.mpr hc0l)
  have hsplen :
      (fbfill (((List.range l.length).map (rawVelocity g l)).map Prod.fst)).length =
        l.length := by
    rw [length_fbfill, List.length_map, List.length_map, List.length_range]
  have hbrlen :
      (fbfill (((List.range l.length).map (rawVelocity g l)).map Prod.snd)).length =
        l.length := by
    rw [length_fbfill, List.length_map, List.length_map, List.length_range]
  have hspmem :
      (fbfill (((List.range l.length).map (rawVelocity g l)).map Prod.fst)).getD c none ∈
        fbfill (((List.range l.length).map (rawVelocity g l)).map Prod.fst) := by
    rw [List.getD_eq_getElem _ _ (by omega)]
    exact List.getElem_mem _
  have hbrmem :
      (fbfill (((List.range l.length).map (rawVelocity g l)).map Prod.snd)).getD c none ∈
        fbfill (((List.range l.length).map (rawVelocity g l)).map Prod.snd) := by
    rw [List.getD_eq_getElem _ _ (by omega)]
    exact List.getElem_mem _
  have hspnn := fbfill_allSome _ v0 hv0mem _ hspmem
  have hbrnn := fbfill_allSome _ b0 hb0mem _ hbrmem
  obtain ⟨v, hv⟩ := Option.ne_none_iff_exists'.mp hspnn
  obtain ⟨b, hb⟩ := Option.ne_none_iff_exists'.mp hbrnn
  have hvval : extQNonneg v := by
    have hmem : some v ∈ ((List.range l.length).map (rawVelocity g l)).map Prod.fst :=
      mem_fbfill_some v _ (hv ▸ hspmem)
    rw [List.map_map] at hmem
    obtain ⟨c', _, hceq⟩ := List.mem_map.mp hmem
    exact rawVelocity_fst_nonneg g hd l c' v hceq
  have hbval : 0 ≤ b ∧ b < 360 := by
    have hmem : some b ∈ ((List.range l.length).map (rawVelocity g l)).map Prod.snd :=
      mem_fbfill_some b _ (hb ▸ hbrmem)
    rw [List.map_map] at hmem
    obtain ⟨c', _, hceq⟩ := List.mem_map.mp hmem
    exact rawVelocity_snd_range g l c' b hceq
  subst hrdef
  exact ⟨⟨v, hv, hvval⟩, ⟨b, hb, hbval.1, hbval.2⟩⟩

/-- Concrete stand-in for the pyproj geodesic: distance 0 between identical
points (as `Geod.inv` returns), some fixed positive distance otherwise, and
fixed azimuths. -/
def gDummy : GeodInv :=
  { fwdAz := fun _ _ => 45
    invAz := fun _ _ => 225
    dist := fun p q => if p = q then 0 else 100000 }

/-- C2 (counterexample).  On a single-record advisory the velocity estimator
computes `0.0 / 0.0 = NaN`, and the forward/backward fills have nothing to
fill from, so the output speed is null — not `0` as claimed — and the output
direction is null as well — not "non-null (carried via fill)". -/
theorem C2_single_record_speed_null :
    (computeVelocityAdvisory gDummy [mkRow "OFCL" 0 0 0]).map Row.speed = [none] ∧
    (computeVelocityAdvisory gDummy [mkRow "OFCL" 0 0 0]).map Row.direction = [none] := by
  decide

def C2rowA : Row := mkRow "OFCL" 0 0 0

def C2rowB : Row := { mkRow "OFCL" 3600 0 0 with longitude := 1 }

theorem C2_velocity_bounds_witness :
    (∃ v, ((computeVelocityAdvisory gDummy [C2rowA, C2rowB]).getD 0 default).speed =
        some v ∧ extQNonneg v) ∧
    (∃ b, ((computeVelocityAdvisory gDummy [C2rowA, C2rowB]).getD 0 default).direction =
        some b ∧ 0 ≤ b ∧ b < 360) := by
  have hmem : (computeVelocityAdvisory gDummy [C2rowA, C2rowB]).getD 0 default ∈
      computeVelocityAdvisory gDummy [C2rowA, C2rowB] := by
    have hlen : (computeVelocityAdvisory gDummy [C2rowA, C2rowB]).length = 2 := by
      unfold computeVelocityAdvisory
      rw [List.length_map, List.length_range]
      rfl
    rw [List.getD_eq_getElem _ _ (by omega)]
    exact List.getElem_mem _
  exact C2_velocity_bounds_amended gDummy
    (by
      intro p q
      simp only [gDummy]
      split <;> norm_num)
    [C2rowA, C2rowB] (by decide) _ hmem

/-- Embedding of `HollandBRelation.holland_b` (track.py lines 1196-1204):
`Vmax² · ρ · e / (Pbg − Pc)`.  The constant `numpy.exp(1)` is passed in as
the explicit parameter `e` (the library value is a positive float; the
identities below hold for every nonzero `e`). -/
def holland_b (e rho vmax bg pc : ℚ) : ℚ :=
  (vmax ^ 2 * rho * e) / (bg - pc)

/-- Embedding of `HollandBRelation.central_pressure` (track.py lines
1206-1214): `(−Vmax² · ρ · e) / B + Pbg`. -/
def central_pressure (e rho vmax bg hb : ℚ) : ℚ :=
  (-(vmax ^ 2) * rho * e) / hb + bg

/-- C3 (counterexample).  At `Vmax = 0` (with the default density
`ρ = 1.15`, a rational stand-in for `e`, and `Pbg = 2 > Pc = 1 > 0`) the
round-trip fails: `holland_b` returns `0`, and `central_pressure` divides by
it, yielding `Pbg` under the rational convention `x / 0 = 0` — and `NaN` in
the floating-point implementation (`-0.0 / 0.0`) — in either case not `Pc`.
The claim quantifies over all `Vmax` and all densities `ρ`, so this instance
refutes it. -/
theorem C3_zero_vmax_cex :
    central_pressure (27183 / 10000) (23 / 20) 0 2
        (holland_b (27183 / 10000) (23 / 20) 0 2 1) = 2 ∧
      (2 : ℚ) ≠ 1 := by
  constructor
  · unfold holland_b central_pressure
    norm_num
  · norm_num

/-- C3 (amended).  For every nonzero `Vmax`, nonzero density `ρ`, nonzero
`e`, and pressures with `Pbg > Pc > 0`, the relation
`central_pressure(Vmax, Pbg, holland_b(Vmax, Pbg, Pc)) = Pc` holds exactly in
rational arithmetic. -/
theorem C3_holland_b_consistency_amended (e rho vmax bg pc : ℚ)
    (he : e ≠ 0) (hrho : rho ≠ 0) (hv : vmax ≠ 0) (hbp : pc < bg) (hpc : 0 < pc) :
    central_pressure e rho vmax bg (holland_b e rho vmax bg pc) = pc := by
  unfold holland_b central_pressure
  have h1 : bg - pc ≠ 0 := sub_ne_zero.mpr (ne_of_gt hbp)
  have h2 : vmax ^ 2 * rho * e ≠ 0 :=
    mul_ne_zero (mul_ne_zero (pow_ne_zero 2 hv) hrho) he
  rw [div_div_eq_mul_div]
  have h3 : -vmax ^ 2 * rho * e * (bg - pc) = -(bg - pc) * (vmax ^ 2 * rho * e) := by
    ring
  rw [h3, mul_div_assoc, div_self h2, mul_one]
  ring

theorem C3_holland_b_witness :
    central_pressure (27183 / 10000) (23 / 20) 30 1013
        (holland_b (27183 / 10000) (23 / 20) 30 1013 990) = 990 :=
  C3_holland_b_consistency_amended (27183 / 10000) (23 / 20) 30 1013 990
    (by norm_num) (by norm_num) (by norm_num) (by norm_num) (by norm_num)

/-- The external geodesic forward problem,
`Geod(ellps="WGS84").fwd(lons, lats, az, dist)`: origin, azimuth and
distance to a projected point. -/
structure GeodFwd where
  fwd : ℚ × ℚ → ℚ → ℚ → ℚ × ℚ

/-- The external shapely polygon algebra used by `isotachs` and
`wind_swaths`: polygon construction from a vertex list, `ops.unary_union`,
the `MultiPolygon` test, `buffer`, and `convex_hull`.  The verification is
parametric in the polygon type and these operations. -/
structure GeomOps (P : Type) where
  mkPolygon : List (ℚ × ℚ) → P
  unary_union : List P → P
  isMultiPolygon : P → Bool
  buffer : P → ℚ → P
  convex_hull : P → P

/-- Nautical-mile to meter conversion of the four quadrant-radius columns,
the embedding of `data[quadrant_names] *= 1852.0` (track.py line 857);
missing radii stay missing (`NaN * 1852.0 = NaN`). -/
def scaleQuadrantRadii (r : Row) : Row :=
  { r with
    isotach_radius_for_NEQ := r.isotach_radius_for_NEQ.map (fun q => q * 1852),
    isotach_radius_for_SEQ := r.isotach_radius_for_SEQ.map (fun q => q * 1852),
    isotach_radius_for_SWQ := r.isotach_radius_for_SWQ.map (fun q => q * 1852),
    isotach_radius_for_NWQ := r.isotach_radius_for_NWQ.map (fun q => q * 1852) }

/-- Quadrant radii in the fixed iteration order NE, SE, SW, NW of
`quadrant_names` (track.py lines 849-854). -/
def quadrantRadii (r : Row) : List (Option ℚ) :=
  [r.isotach_radius_for_NEQ, r.isotach_radius_for_SEQ,
   r.isotach_radius_for_SWQ, r.isotach_radius_for_NWQ]

/-- The quadrant guard `row[quadrant_name] > 1` (track.py line 879): a
missing radius compares false, exactly as `NaN > 1` does. -/
def rGtOne : Option ℚ → Bool
  | none => false
  | some q => decide (1 < q)

/-- Semantics of `numpy.linspace(start, end, segments)` with endpoint included. -/
def linspace (s e : ℚ) (n : Nat) : List ℚ :=
  if n = 0 then []
  else if n = 1 then [s]
  else (List.range n).map (fun i => s + (e - s) * i / ((n : ℚ) - 1))

/-- Angular-span assignment of the quadrant loop (track.py lines 869-911):
walking the radii in NE, SE, SW, NW order with a running start angle
initialised to `360 - direction`, a quadrant whose radius passes the `> 1`
guard receives the span `[start, start + 90]` and advances the start angle
by 90; a skipped quadrant does **not** advance the start angle (the
`start_angle = start_angle + 90` statement sits inside the guard). -/
def quadrantSpansGo : Nat → ℚ → List (Option ℚ) → List (Nat × ℚ × ℚ)
  | _, _, [] => []
  | i, sa, r :: rest =>
    if rGtOne r then (i, sa, sa + 90) :: quadrantSpansGo (i + 1) (sa + 90) rest
    else quadrantSpansGo (i + 1) sa rest

def quadrantSpans (direction : ℚ) (radii : List (Option ℚ)) : List (Nat × ℚ × ℚ) :=
  quadrantSpansGo 0 (360 - direction) radii

/-- The sector polygon of one quadrant: the record's position, the arc of
`segments` geodesic-forward projections across the span, and the position
again to close the ring (track.py lines 881-911). -/
def sectorPolygon {P : Type} (ops : GeomOps P) (geo : GeodFwd) (segments : Nat)
    (center : ℚ × ℚ) (radius : ℚ) (sAngle eAngle : ℚ) : P :=
  ops.mkPolygon
    (center :: ((linspace sAngle eAngle segments).map
      (fun az => geo.fwd center az radius) ++ [center]))

/-- Per-record isotach polygon (track.py lines 869-919): union of the
quadrant sectors; a degenerate multi-component union is coalesced with a
`1e-10` buffer; a record with no valid quadrant yields nothing. -/
def rowIsotach {P : Type} (ops : GeomOps P) (geo : GeodFwd) (segments : Nat)
    (r : Row) : Option P :=
  let radii := quadrantRadii r
  let quads := (quadrantSpans (r.direction.getD 0) radii).map (fun s =>
    sectorPolygon ops geo segments (r.longitude, r.latitude)
      ((radii.getD s.1 none).getD 0) s.2.1 s.2.2)
  if quads.isEmpty then none
  else
    let iso := ops.unary_union quads
    some (if ops.isMultiPolygon iso then ops.buffer iso (1 / 10000000000) else iso)

/-- Python dictionary insertion: an existing key is overwritten in place,
a new key is appended. -/
def dictInsert {K V : Type} [DecidableEq K] (d : List (K × V)) (k : K) (v : V) :
    List (K × V) :=
  if d.any (fun p => p.1 == k) then d.map (fun p => if p.1 == k then (k, v) else p)
  else d ++ [(k, v)]

/-- Embedding of `VortexTrack.isotachs` (track.py lines 829-924): assert the
wind speed is one of 34, 50, 64 (otherwise fail with no partial result),
filter the table to that isotach bin, convert quadrant radii to meters on
the filtered copy, split into tracks, and build one polygon per
non-degenerate record, keyed advisory → cycle → valid time.  (Per-track
keys are valid times: the source's key string is the valid time's string
representation, injective per record time.) -/
def isotachs {P : Type} (ops : GeomOps P) (geo : GeodFwd) (t : Table) (ws : ℚ)
    (segments : Nat) :
    Except String (List (String × List (Int × List (Int × P)))) :=
  if ws = 34 ∨ ws = 50 ∨ ws = 64 then
    Except.ok
      ((separate_tracks
          ((t.filter (fun r => r.isotach_radius == some ws)).map scaleQuadrantRadii)).filterMap
        (fun p =>
          let advIso := p.2.filterMap (fun q =>
            let ti := q.2.foldl (fun acc r =>
              match rowIsotach ops geo segments r with
              | none => acc
              | some poly => dictInsert acc r.datetime poly) []
            if ti.isEmpty then none else some (q.1, ti))
          if advIso.isEmpty then none else some (p.1, advIso)))
  else Except.error "isotach must be one of [34, 50, 64]"

/-- Pairwise convex hulls of consecutive isotachs of one track (track.py
lines 942-952). -/
def consecutiveHulls {P : Type} (ops : GeomOps P) (tiso : List (Int × P)) : List P :=
  ((tiso.map Prod.snd).zip (tiso.map Prod.snd).tail).map (fun pq =>
    ops.convex_hull (ops.unary_union [pq.1, pq.2]))

/-- Swaths of one advisory: tracks with at least one consecutive pair get
the union of the pairwise hulls; others are absent (track.py lines 941-958). -/
def advisorySwaths {P : Type} (ops : GeomOps P) (ai : List (Int × List (Int × P))) :
    List (Int × P) :=
  ai.filterMap (fun q =>
    if (consecutiveHulls ops q.2).isEmpty then none
    else some (q.1, ops.unary_union (consecutiveHulls ops q.2)))

/-- The dictionary part of `VortexTrack.wind_swaths` (track.py lines
938-962), applied to the nested isotach dictionary. -/
def windSwathsFromIsotachs {P : Type} (ops : GeomOps P)
    (iso : List (String × List (Int × List (Int × P)))) :
    List (String × List (Int × P)) :=
  iso.filterMap (fun p =>
    if p.2.isEmpty then none else some (p.1, advisorySwaths ops p.2))

/-- Embedding of `VortexTrack.wind_swaths` (track.py lines 926-962). -/
def wind_swaths {P : Type} (ops : GeomOps P) (geo : GeodFwd) (t : Table) (ws : ℚ)
    (segments : Nat) : Except String (List (String × List (Int × P))) :=
  (isotachs ops geo t ws segments).map (windSwathsFromIsotachs ops)

/-- C4.  The isotach computation succeeds exactly on the wind speeds 34, 50
and 64; any other wind speed fails the assertion with no partial result, and
`wind_swaths` at that wind speed propagates the same failure. -/
theorem C4_isotach_wind_speed_validation {P : Type} (ops : GeomOps P) (geo : GeodFwd)
    (t : Table) (ws : ℚ) (segments : Nat) :
    ((isotachs ops geo t ws segments).isOk = true ↔ (ws = 34 ∨ ws = 50 ∨ ws = 64)) ∧
    (isotachs ops geo t ws segments =
        Except.error "isotach must be one of [34, 50, 64]" ↔
      ¬(ws = 34 ∨ ws = 50 ∨ ws = 64)) ∧
    (wind_swaths ops geo t ws segments =
        Except.error "isotach must be one of [34, 50, 64]" ↔
      ¬(ws = 34 ∨ ws = 50 ∨ ws = 64)) := by
  unfold wind_swaths isotachs
  by_cases h : ws = 34 ∨ ws = 50 ∨ ws = 64
  · rw [if_pos h]
    exact ⟨iff_of_true rfl h,
      iff_of_false (by simp) (not_not_intro h),
      iff_of_false (by simp [Except.map]) (not_not_intro h)⟩
  · rw [if_neg h]
    exact ⟨iff_of_false (by simp [Except.isOk, Except.toBool]) h,
      iff_of_true rfl h,
      iff_of_true (by simp [Except.map]) h⟩

/-- Indices of the quadrants that pass the `> 1` radius guard, in NE, SE,
SW, NW order. -/
def includedIdx (radii : List (Option ℚ)) : List Nat :=
  (List.range radii.length).filter (fun i => rGtOne (radii.getD i none))

/-- Recursive form of `includedIdx`, used to reason about the quadrant
loop. -/
def includedRel : List (Option ℚ) → List Nat
  | [] => []
  | r :: rest =>
    if rGtOne r then 0 :: (includedRel rest).map (fun i => i + 1)
    else (includedRel rest).map (fun i => i + 1)

theorem mapIdx_map_inner {α β γ : Type} (g : α → β) (l : List α) :
    ∀ f : Nat → β → γ, (l.map g).mapIdx f = l.mapIdx (fun j a => f j (g a)) := by
  induction l with
  | nil => intro f; rfl
  | cons a l ih =>
    intro f
    simp only [List.map_cons, List.mapIdx_cons]
    rw [ih]

theorem includedIdx_eq_includedRel :
    ∀ radii : List (Option ℚ), includedIdx radii = includedRel radii := by
  intro radii
  induction radii with
  | nil => rfl
  | cons r rest ih =>
    unfold includedIdx includedRel
    rw [List.length_cons, List.range_succ_eq_map, List.filter_cons]
    have hmap : (List.filter (fun i => rGtOne ((r :: rest).getD i none))
        ((List.range rest.length).map (fun i => i + 1))) =
        ((List.range rest.length).filter (fun i => rGtOne (rest.getD i none))).map
          (fun i => i + 1) := by
      rw [List.filter_map]
      congr 1
    rw [hmap, ← includedIdx, ih]
    by_cases hr : rGtOne r
    · rw [if_pos (by simpa using hr), if_pos hr]
    · rw [if_neg (by simpa using hr), if_neg hr]

theorem mapIdx_congr_fun {α β : Type} (l : List α) :
    ∀ f g : Nat → α → β, (∀ j a, f j a = g j a) → l.mapIdx f = l.mapIdx g := by
  induction l with
  | nil => intro f g _; rfl
  | cons a l ih =>
    intro f g h
    simp only [List.mapIdx_cons]
    rw [h 0 a, ih (fun i => f (i + 1)) (fun i => g (i + 1)) (fun j b => h (j + 1) b)]

theorem quadrantSpansGo_eq :
    ∀ (radii : List (Option ℚ)) (i : Nat) (a : ℚ),
      quadrantSpansGo i a radii =
        (includedRel radii).mapIdx (fun j k =>
          (i + k, a + 90 * (j : ℚ), a + 90 * ((j : ℚ) + 1))) := by
  intro radii
  induction radii with
  | nil => intro i a; rfl
  | cons r rest ih =>
    intro i a
    unfold quadrantSpansGo includedRel
    by_cases hr : rGtOne r
    · rw [if_pos hr, if_pos hr]
      rw [List.mapIdx_cons, ih (i + 1) (a + 90), mapIdx_map_inner]
      congr 1
      · rw [Prod.ext_iff, Prod.ext_iff]
        refine ⟨by omega, by push_cast; ring, by push_cast; ring⟩
      · apply mapIdx_congr_fun
        intro j k
        rw [Prod.ext_iff, Prod.ext_iff]
        refine ⟨by omega, by push_cast; ring, by push_cast; ring⟩
    · rw [if_neg hr, if_neg hr]
      rw [ih (i + 1) a, mapIdx_map_inner]
      apply mapIdx_congr_fun
      intro j k
      rw [Prod.ext_iff, Prod.ext_iff]
      refine ⟨by omega, rfl, rfl⟩

/-- The spec's reading of the quadrant loop ("fixed 90-degree spans
advancing +90 per quadrant regardless of which quadrants are skipped"):
quadrant `i` always gets the span starting at `360 - direction + 90·i`. -/
def quadrantSpansClaimed (direction : ℚ) (radii : List (Option ℚ)) :
    List (Nat × ℚ × ℚ) :=
  (List.range radii.length).filterMap (fun i =>
    if rGtOne (radii.getD i none) then
      some (i, (360 - direction) + 90 * (i : ℚ), (360 - direction) + 90 * ((i : ℚ) + 1))
    else none)

/-- C5 (counterexample).  With direction 0 and a skipped NE quadrant
(radius 0) followed by a valid SE quadrant (radius 2000 m), the code hands
the SE quadrant the span `[360, 450]` — the span the claim reserves for NE —
because a skipped quadrant does not advance the running angle; the claim
predicts `[450, 540]` for SE. -/
theorem C5_skipped_quadrant_shifts_spans :
    quadrantSpans 0 [some 0, some 2000, none, none] = [(1, 360, 450)] ∧
    quadrantSpansClaimed 0 [some 0, some 2000, none, none] = [(1, 450, 540)] ∧
    quadrantSpans 0 [some 0, some 2000, none, none] ≠
      quadrantSpansClaimed 0 [some 0, some 2000, none, none] := by
  have h1 : quadrantSpans 0 [some 0, some 2000, none, none] = [(1, 360, 450)] := by
    norm_num [quadrantSpans, quadrantSpansGo, rGtOne]
  have h2 : quadrantSpansClaimed 0 [some 0, some 2000, none, none] = [(1, 450, 540)] := by
    norm_num [quadrantSpansClaimed, List.range_succ, List.filterMap_append,
      List.filterMap_cons, List.getD_cons_zero, List.getD_cons_succ, rGtOne]
  refine ⟨h1, h2, ?_⟩
  rw [h1, h2]
  intro hcon
  simp only [List.cons.injEq, Prod.mk.injEq] at hcon
  exact absurd hcon.1.2.1 (by norm_num)

/-- C5 (amended).  In the isotach builder the `j`-th quadrant **that passes
the `> 1` meter radius guard** (in the fixed NE, SE, SW, NW order) receives
the angular span `[360 - direction + 90·j, 360 - direction + 90·(j+1)]`:
spans advance +90 only across non-skipped quadrants, while quadrants whose
radius is missing or at most 1 meter are skipped entirely (zero extent, not
an error) and do not advance the angle. -/
theorem C5_quadrant_spans_amended (direction : ℚ) (radii : List (Option ℚ)) :
    quadrantSpans direction radii =
      (includedIdx radii).mapIdx (fun j i =>
        (i, (360 - direction) + 90 * (j : ℚ), (360 - direction) + 90 * ((j : ℚ) + 1))) := by
  unfold quadrantSpans
  rw [quadrantSpansGo_eq, includedIdx_eq_includedRel]
  apply mapIdx_congr_fun
  intro j k
  rw [Prod.ext_iff, Prod.ext_iff]
  exact ⟨by omega, rfl, rfl⟩

/-- A store of live DataFrames, indexed by allocation order: the explicit
model of pandas frame identity needed to state which frame a mutating
statement touches. -/
abbrev FrameStore := List Table

def readFrame (s : FrameStore) (i : Nat) : Table := s.getD i []

/-- The stateful prefix of `VortexTrack.isotachs` (track.py lines 845-861)
acting on the store: `data = self.data[self.data["isotach_radius"] == wind_speed]`
allocates a fresh frame (pandas boolean-mask indexing returns a copy), and
`data[quadrant_names] *= 1852.0` then mutates only that fresh frame.
Returns the new store and the reference held by the local `data`
variable. -/
def isotachsFrameStep (s : FrameStore) (stored : Nat) (ws : ℚ) : FrameStore × Nat :=
  let view := (readFrame s stored).filter (fun r => r.isotach_radius == some ws)
  let s1 := s ++ [view]
  let dataRef := s.length
  let s2 := s1.set dataRef ((readFrame s1 dataRef).map scaleQuadrantRadii)
  (s2, dataRef)

/-- C10.  Running the isotach builder leaves the stored canonical table
untouched: the nautical-mile-to-meter scaling lands on the freshly
allocated filtered copy, so after the call the stored frame still holds,
field for field, the rows it held before — quadrant radii still in nautical
miles — while the local `data` frame holds the filtered, scaled rows. -/
theorem C10_isotachs_preserves_stored_table (s : FrameStore) (stored : Nat)
    (ws : ℚ) (hs : stored < s.length) :
    readFrame (isotachsFrameStep s stored ws).1 stored = readFrame s stored ∧
    readFrame (isotachsFrameStep s stored ws).1 (isotachsFrameStep s stored ws).2 =
      ((readFrame s stored).filter (fun r => r.isotach_radius == some ws)).map
        scaleQuadrantRadii := by
  unfold isotachsFrameStep readFrame
  simp only
  constructor
  · rw [List.getD_eq_getElem _ _ (by simp; omega)]
    rw [List.getElem_set_ne (by omega)]
    rw [List.getElem_append_left hs]
    rw [List.getD_eq_getElem _ _ hs]
  · rw [List.getD_eq_getElem _ _ (by simp)]
    rw [List.getElem_set (by simp)]
    rw [if_pos rfl]
    rw [List.getD_eq_getElem _ _ (by simp)]
    rw [List.getElem_append_right (by omega)]
    simp

theorem C10_frame_witness :
    0 < [C1exTable].length ∧
    readFrame (isotachsFrameStep [C1exTable] 0 34).1 0 = readFrame [C1exTable] 0 :=
  ⟨by norm_num,
   (C10_isotachs_preserves_stored_table [C1exTable] 0 34 (by norm_num)).1⟩

/-- Association-list lookup, the semantics of Python dictionary access. -/
def alookup {K V : Type} [DecidableEq K] : List (K × V) → K → Option V
  | [], _ => none
  | p :: rest, k => if p.1 = k then some p.2 else alookup rest k

/-- The RMW fill policies of `RMWFillMethod` (`none`,
`persistent`, `regression_penny_2023_no_smoothing`,
`regression_penny_2023_with_smoothing`). -/
inductive RMWFill where
  | noneFill : RMWFill
  | persistent : RMWFill
  | regressionNoSmoothing : RMWFill
  | regressionWithSmoothing : RMWFill
deriving DecidableEq, Repr

/-- CARQ reference selection of `correct_ofcl_based_on_carq_n_hollandb`
(track.py lines 1344-1348): the CARQ track of the same cycle start time if
one exists, else the first CARQ track in dictionary (insertion) order,
`carq_tracks[list(carq_tracks)[0]]`.  (The source raises `IndexError` when
no CARQ track exists at all; callers guard both advisories being present.) -/
def selectCarqRef (carq : List (Int × Table)) (k : Int) : Table :=
  match alookup carq k with
  | some trk => trk
  | none => (carq.headD (0, [])).2

/-- Elementwise Holland-B over one CARQ record with the source's
post-processing (track.py lines 1350-1358): a missing operand propagates
`NaN`, and a zero pressure difference yields `inf` (replaced by `NaN`) or
`0/0 = NaN`; both are `none` here and are then ignored by `nanmean`. -/
def hollandBO (e rho : ℚ) (r : Row) : Option ℚ :=
  match r.max_sustained_wind_speed, r.background_pressure, r.central_pressure with
  | some v, some bg, some pc =>
      if bg - pc = 0 then none else some (holland_b e rho v bg pc)
  | _, _, _ => none

/-- Semantics of `numpy.nanmean`: the mean of the present values, `NaN` when none are. -/
def nanmean (l : List (Option ℚ)) : Option ℚ :=
  let v := l.filterMap id
  if v.isEmpty then none else some (v.sum / (v.length : ℚ))

/-- Missing-field test of the corrector (track.py lines 1363-1371): both
null and `0` count as missing. -/
def missingO : Option ℚ → Bool
  | none => true
  | some q => q == 0

/-- Elementwise central-pressure fill value (track.py lines 1448-1454): a
missing wind speed, background pressure or Holland-B mean propagates `NaN`;
`none` also stands for the non-finite float that a zero Holland-B mean
would produce. -/
def centralPressureO (e rho : ℚ) (v bg hb : Option ℚ) : Option ℚ :=
  match v, bg, hb with
  | some v, some bg, some hb =>
      if hb = 0 then none else some (central_pressure e rho v bg hb)
  | _, _, _ => none

/-- The 0-hour CARQ reference record,
`carq_forecast.loc[carq_forecast.forecast_hours == 0].iloc[0]` (track.py
line 1361).  The source raises `IndexError` when the reference track has no
0-hour record; every theorem below hypothesises its presence, so the
`headD default` total encoding is never taken on its default. -/
def carqRefRow (ref : Table) : Row :=
  (ref.filter (fun r => r.forecast_hours == 0)).headD default

/-- Correction of one OFCL track (track.py lines 1344-1456): select the
CARQ reference, average Holland-B over it, take the 0-hour reference
record, compute per-column missing masks **on the incoming forecast**, fill
RMW according to the policy (the Penny et al. 2023 regression paths depend
on `stormevents.nhc.const` coefficient tables outside this module and are
taken as the explicit `regFill` parameter), then fill background pressure
from the reference and finally central pressure through the Holland-B
relation using the already-filled background pressure. -/
def correctTrack (e rho : ℚ) (regFill : RMWFill → Row → Table → Table)
    (method : RMWFill) (carq : List (Int × Table)) (k : Int)
    (forecast : Table) : Table :=
  let ref := selectCarqRef carq k
  let hb := nanmean (ref.map (hollandBO e rho))
  let cr := carqRefRow ref
  let fc1 : Table :=
    match method with
    | RMWFill.persistent =>
        forecast.map (fun r =>
          if missingO r.radius_of_maximum_winds then
            { r with radius_of_maximum_winds := cr.radius_of_maximum_winds }
          else r)
    | RMWFill.regressionNoSmoothing => regFill method cr forecast
    | RMWFill.regressionWithSmoothing => regFill method cr forecast
    | RMWFill.noneFill => forecast
  let fc2 := (forecast.zip fc1).map (fun pr =>
    if missingO pr.1.background_pressure then
      { pr.2 with background_pressure := cr.background_pressure }
    else pr.2)
  (forecast.zip fc2).map (fun pr =>
    if missingO pr.1.central_pressure then
      { pr.2 with central_pressure :=
          (centralPressureO e rho pr.2.max_sustained_wind_speed
            pr.2.background_pressure hb) }
    else pr.2)

/-- Embedding of `correct_ofcl_based_on_carq_n_hollandb` (track.py lines
1275-1460): correct every OFCL track against the CARQ tracks and write the
corrected dictionary back under the `OFCL` key. -/
def correct_ofcl_based_on_carq_n_hollandb (e rho : ℚ)
    (regFill : RMWFill → Row → Table → Table) (method : RMWFill)
    (tracks : List (String × List (Int × Table))) :
    List (String × List (Int × Table)) :=
  let ofcl := (alookup tracks "OFCL").getD []
  let carq := (alookup tracks "CARQ").getD []
  dictInsert tracks "OFCL"
    (ofcl.map (fun p => (p.1, correctTrack e rho regFill method carq p.1 p.2)))

/-- The forecast-correction step of the `unfiltered_data` setter (track.py
lines 1064-1074): when OFCL is requested and both OFCL and CARQ advisories
are present in the data, run the corrector and recombine; otherwise the
frame passes through untouched.  (The subsequent removal of CARQ rows that
were fetched only to support the correction, lines 1075-1081, drops rows of
an advisory absent from this claim's scenario and is not modelled.) -/
def applyOfclCorrection (e rho : ℚ) (regFill : RMWFill → Row → Table → Table)
    (method : RMWFill) (advisories : List String) (df : Table) : Table :=
  if "OFCL" ∈ advisories then
    if "OFCL" ∈ (separate_tracks df).map Prod.fst ∧
        "CARQ" ∈ (separate_tracks df).map Prod.fst then
      combine_tracks
        (correct_ofcl_based_on_carq_n_hollandb e rho regFill method
          (separate_tracks df))
    else df
  else df

theorem separate_tracks_keys (t : Table) :
    (separate_tracks t).map Prod.fst = uniqueFirst (t.map Row.advisory) := by
  unfold separate_tracks
  rw [List.map_map]
  exact List.map_id _

/-- C7.  When OFCL advisories are requested but no CARQ record is present in
the data, the correction step is a silent no-op: the table passes through
row for row unmodified, and no error is raised. -/
theorem C7_missing_carq_noop (e rho : ℚ) (regFill : RMWFill → Row → Table → Table)
    (method : RMWFill) (advisories : List String) (df : Table)
    (hOf : "OFCL" ∈ advisories) (hNoCarq : ∀ r ∈ df, r.advisory ≠ "CARQ") :
    applyOfclCorrection e rho regFill method advisories df = df := by
  unfold applyOfclCorrection
  rw [if_pos hOf, if_neg ?hcond]
  case hcond =>
    rintro ⟨_, hcarq⟩
    rw [separate_tracks_keys] at hcarq
    obtain ⟨r, hr, hadv⟩ := List.mem_map.mp ((mem_uniqueFirst _ _).mp hcarq)
    exact hNoCarq r hr hadv

def C7exTable : Table :=
  [mkRow "OFCL" 0 0 0, mkRow "OFCL" 21600 0 6]

theorem C7_missing_carq_witness :
    ("OFCL" ∈ ["OFCL"]) ∧
    applyOfclCorrection (27183 / 10000) (23 / 20) (fun _ _ t => t) RMWFill.persistent
      ["OFCL"] C7exTable = C7exTable :=
  ⟨by decide,
   C7_missing_carq_noop (27183 / 10000) (23 / 20) (fun _ _ t => t) RMWFill.persistent
     ["OFCL"] C7exTable (by decide) (by decide)⟩

theorem alookup_map_pair {K V : Type} [DecidableEq K] (F : K → V) :
    ∀ (keys : List K) (k : K),
      alookup (keys.map (fun x => (x, F x))) k =
        if k ∈ keys then some (F k) else none := by
  intro keys
  induction keys with
  | nil => intro k; simp [alookup]
  | cons a rest ih =>
    intro k
    simp only [List.map_cons, alookup]
    by_cases h : a = k
    · subst h
      rw [if_pos rfl, if_pos (List.mem_cons_self _ _)]
    · rw [if_neg h, ih k]
      by_cases hk : k ∈ rest
      · rw [if_pos hk, if_pos (List.mem_cons_of_mem _ hk)]
      · rw [if_neg hk, if_neg (by
          intro hmem
          rcases List.mem_cons.mp hmem with h' | h'
          · exact h h'.symm
          · exact hk h')]

/-- The CARQ track dictionary of a table, as the corrector receives it. -/
def carqTracksOf (t : Table) : List (Int × Table) :=
  (alookup (separate_tracks t) "CARQ").getD []

/-- C6 (amended).  The corrector selects as reference the CARQ track with
the same cycle start time when one exists; otherwise it takes the CARQ
track listed **first** in the partition — the cycle of the CARQ record
appearing earliest in table order — which need not be the cycle with the
earliest start time. -/
theorem C6_reference_selection_amended (t : Table) (k : Int) (r0 : Row)
    (h0 : (t.filter (fun r => r.advisory == "CARQ")).head? = some r0) :
    (∀ trk, alookup (carqTracksOf t) k = some trk →
      selectCarqRef (carqTracksOf t) k = trk) ∧
    (alookup (carqTracksOf t) k = none →
      selectCarqRef (carqTracksOf t) k =
        (t.filter (fun r => r.advisory == "CARQ")).filter
          (fun r => r.track_start_time == r0.track_start_time)) := by
  constructor
  · intro trk h
    unfold selectCarqRef
    rw [h]
  · intro h
    -- the CARQ advisory is present, so its dictionary is the start-time map
    have hmem : "CARQ" ∈ uniqueFirst (t.map Row.advisory) := by
      rw [mem_uniqueFirst]
      have hne : t.filter (fun r => r.advisory == "CARQ") ≠ [] := by
        intro hnil
        rw [hnil] at h0
        exact absurd h0 (by simp)
      obtain ⟨r, hr⟩ := List.exists_mem_of_ne_nil _ hne
      have := List.mem_filter.mp hr
      exact List.mem_map.mpr ⟨r, this.1, by simpa using this.2⟩
    have hsl : advisorySlice t "CARQ" = t.filter (fun r => r.advisory == "CARQ") := by
      unfold advisorySlice
      rw [if_neg (by decide)]
    have hcarq : carqTracksOf t =
        (uniqueFirst ((advisorySlice t "CARQ").map Row.track_start_time)).map
          (fun ts => (ts, trackSlice t "CARQ" ts)) := by
      unfold carqTracksOf separate_tracks
      have halk := alookup_map_pair
        (fun adv =>
          (uniqueFirst ((advisorySlice t adv).map Row.track_start_time)).map
            (fun ts => (ts, trackSlice t adv ts)))
        (uniqueFirst (t.map Row.advisory)) "CARQ"
      rw [halk, if_pos hmem]
      rfl
    obtain ⟨tl, htl⟩ : ∃ tl, t.filter (fun r => r.advisory == "CARQ") = r0 :: tl := by
      cases hfe : t.filter (fun r => r.advisory == "CARQ") with
      | nil => rw [hfe] at h0; exact absurd h0 (by simp)
      | cons a tl =>
        rw [hfe] at h0
        simp only [List.head?_cons, Option.some.injEq] at h0
        exact ⟨tl, by rw [h0]⟩
    have hr0 : uniqueFirst ((advisorySlice t "CARQ").map Row.track_start_time) =
        r0.track_start_time ::
          (uniqueFirst (tl.map Row.track_start_time)).filter
            (fun b => b ≠ r0.track_start_time) := by
      rw [hsl, htl]
      rw [List.map_cons, uniqueFirst]
    unfold selectCarqRef
    rw [h, hcarq, hr0]
    simp only [List.map_cons, List.headD_cons]
    unfold trackSlice
    rw [if_neg (by decide), hsl]

def C6exTable : Table :=
  [mkRow "CARQ" 94 106 (-12), mkRow "CARQ" 100 100 0,
   mkRow "OFCL" 103 103 0, mkRow "CARQ" 106 106 0]

/-- C6 (counterexample).  In a canonically sorted table whose CARQ advisory
carries a negative forecast hour, the first-listed CARQ cycle (start time
106, whose −12 h record has the earliest valid time 94) is not the earliest
cycle (start time 100).  For an OFCL cycle 103 with no same-time CARQ track
the code selects the cycle-106 track, while the claim requires the earliest
available CARQ track, cycle 100. -/
theorem C6_fallback_not_earliest :
    (carqTracksOf C6exTable).map Prod.fst = [106, 100] ∧
    (selectCarqRef (carqTracksOf C6exTable) 103).map Row.track_start_time =
      [106, 106] ∧
    ((100 : Int) < 106 ∧ (106 : Int) ≠ 100) := by
  refine ⟨by decide, by decide, by decide⟩

theorem C6_reference_selection_witness :
    ((C6exTable.filter (fun r => r.advisory == "CARQ")).head? =
      some (mkRow "CARQ" 94 106 (-12))) ∧
    alookup (carqTracksOf C6exTable) 103 = none ∧
    selectCarqRef (carqTracksOf C6exTable) 103 =
      (C6exTable.filter (fun r => r.advisory == "CARQ")).filter
        (fun r => r.track_start_time == (mkRow "CARQ" 94 106 (-12)).track_start_time) :=
  ⟨by decide, by decide,
   (C6_reference_selection_amended C6exTable 103 (mkRow "CARQ" 94 106 (-12))
     (by decide)).2 (by decide)⟩

theorem zip_self_map {α β : Type} (l : List α) (f : α → β) :
    l.zip (l.map f) = l.map (fun a => (a, f a)) := by
  induction l with
  | nil => rfl
  | cons a l ih => rw [List.map_cons, List.zip_cons_cons, ih, List.map_cons]

theorem exists_of_alookup_some {K V : Type} [DecidableEq K] :
    ∀ (d : List (K × V)) (k : K) (v0 : V), alookup d k = some v0 →
      ∃ q ∈ d, q.1 = k := by
  intro d k v0
  induction d with
  | nil => intro h; exact absurd h (by simp [alookup])
  | cons p rest ih =>
    intro h
    unfold alookup at h
    by_cases hp : p.1 = k
    · exact ⟨p, List.mem_cons_self _ _, hp⟩
    · rw [if_neg hp] at h
      obtain ⟨q, hq, hqk⟩ := ih h
      exact ⟨q, List.mem_cons_of_mem _ hq, hqk⟩

theorem alookup_map_overwrite {K V : Type} [DecidableEq K] (k : K) (v : V) :
    ∀ (d : List (K × V)) (v0 : V), alookup d k = some v0 →
      alookup (d.map (fun q => if q.1 == k then (k, v) else q)) k = some v := by
  intro d
  induction d with
  | nil => intro v0 h; exact absurd h (by simp [alookup])
  | cons p rest ih =>
    intro v0 h
    unfold alookup at h
    rw [List.map_cons]
    by_cases hp : p.1 = k
    · rw [if_pos (by simpa using hp)]
      unfold alookup
      rw [if_pos rfl]
    · rw [if_neg (by simpa using hp)]
      unfold alookup
      rw [if_neg hp]
      rw [if_neg hp] at h
      exact ih v0 h

theorem alookup_dictInsert_self {K V : Type} [DecidableEq K]
    (d : List (K × V)) (k : K) (v : V) (v0 : V) (h : alookup d k = some v0) :
    alookup (dictInsert d k v) k = some v := by
  unfold dictInsert
  obtain ⟨q, hq, hqk⟩ := exists_of_alookup_some d k v0 h
  rw [if_pos (List.any_eq_true.mpr ⟨q, hq, by simpa using hqk⟩)]
  exact alookup_map_overwrite k v d v0 h

theorem carqRefRow_eq_of_head {carq : List (Int × Table)} {k : Int} {r0 : Row}
    (h0 : ((selectCarqRef carq k).filter (fun r => r.forecast_hours == 0)).head? =
      some r0) : carqRefRow (selectCarqRef carq k) = r0 := by
  unfold carqRefRow
  cases hfe : (selectCarqRef carq k).filter (fun r => r.forecast_hours == 0) with
  | nil => rw [hfe] at h0; exact absurd h0 (by simp)
  | cons a tl =>
    rw [hfe] at h0
    simp only [List.head?_cons, Option.some.injEq] at h0
    rw [List.headD_cons, h0]

/-- The RMW column after persistent filling: every record whose RMW is
missing (null or `0`) gets exactly the reference's 0-hour RMW; the
background- and central-pressure fill steps leave the column alone. -/
theorem correctTrack_persistent_rmw (e rho : ℚ)
    (regFill : RMWFill → Row → Table → Table) (carq : List (Int × Table))
    (k : Int) (fc : Table) (r0 : Row)
    (h0 : ((selectCarqRef carq k).filter (fun r => r.forecast_hours == 0)).head? =
      some r0) :
    (correctTrack e rho regFill RMWFill.persistent carq k fc).map
        Row.radius_of_maximum_winds =
      fc.map (fun r =>
        if missingO r.radius_of_maximum_winds then r0.radius_of_maximum_winds
        else r.radius_of_maximum_winds) := by
  have hcr := carqRefRow_eq_of_head h0
  simp only [correctTrack, hcr]
  simp only [List.map_map, zip_self_map]
  apply List.map_congr_left
  intro r _
  simp only [Function.comp_apply]
  by_cases h1 : missingO r.radius_of_maximum_winds <;>
    by_cases h2 : missingO r.background_pressure <;>
    by_cases h3 : missingO r.central_pressure <;>
    simp [h1, h2, h3]

/-- C8.  Under the persistent RMW-fill policy, the corrected OFCL track for
cycle `k` is present in the output under the `OFCL` key, and its RMW column
equals the incoming one with every missing entry (null or `0`) replaced by
exactly the reference CARQ track's 0-hour RMW, non-missing entries
unchanged. -/
theorem C8_persistent_rmw_fill (e rho : ℚ)
    (regFill : RMWFill → Row → Table → Table)
    (tracks : List (String × List (Int × Table)))
    (ofclT carqT : List (Int × Table)) (k : Int) (fc : Table) (r0 : Row)
    (hO : alookup tracks "OFCL" = some ofclT)
    (hC : alookup tracks "CARQ" = some carqT)
    (hk : (k, fc) ∈ ofclT)
    (h0 : ((selectCarqRef carqT k).filter (fun r => r.forecast_hours == 0)).head? =
      some r0) :
    ((k, correctTrack e rho regFill RMWFill.persistent carqT k fc) ∈
      (alookup
        (correct_ofcl_based_on_carq_n_hollandb e rho regFill RMWFill.persistent
          tracks) "OFCL").getD []) ∧
    (correctTrack e rho regFill RMWFill.persistent carqT k fc).map
        Row.radius_of_maximum_winds =
      fc.map (fun r =>
        if missingO r.radius_of_maximum_winds then r0.radius_of_maximum_winds
        else r.radius_of_maximum_winds) := by
  constructor
  · simp only [correct_ofcl_based_on_carq_n_hollandb, hO, hC, Option.getD_some]
    rw [alookup_dictInsert_self _ _ _ _ hO, Option.getD_some]
    exact List.mem_map.mpr ⟨(k, fc), hk, rfl⟩
  · exact correctTrack_persistent_rmw e rho regFill carqT k fc r0 h0

def C8ofclRow : Row := mkRow "OFCL" 86400 0 24

def C8carqRow : Row := { mkRow "CARQ" 0 0 0 with radius_of_maximum_winds := some 15 }

def C8tracks : List (String × List (Int × Table)) :=
  [("OFCL", [(0, [C8ofclRow])]), ("CARQ", [(0, [C8carqRow])])]

theorem C8_persistent_rmw_witness :
    ((0, correctTrack (27183 / 10000) (23 / 20) (fun _ _ t => t) RMWFill.persistent
        [(0, [C8carqRow])] 0 [C8ofclRow]) ∈
      (alookup
        (correct_ofcl_based_on_carq_n_hollandb (27183 / 10000) (23 / 20)
          (fun _ _ t => t) RMWFill.persistent C8tracks) "OFCL").getD []) ∧
    (correctTrack (27183 / 10000) (23 / 20) (fun _ _ t => t) RMWFill.persistent
        [(0, [C8carqRow])] 0 [C8ofclRow]).map Row.radius_of_maximum_winds =
      [some 15] := by
  have h := C8_persistent_rmw_fill (27183 / 10000) (23 / 20) (fun _ _ t => t)
    C8tracks [(0, [C8ofclRow])] [(0, [C8carqRow])] 0 [C8ofclRow] C8carqRow
    (by decide) (by decide) (by decide) (by decide)
  exact ⟨h.1, h.2.trans (by decide)⟩

theorem advisorySwaths_cons_pos {P : Type} (ops : GeomOps P)
    (q : Int × List (Int × P)) (rest : List (Int × List (Int × P)))
    (hq : (consecutiveHulls ops q.2).isEmpty = true) :
    advisorySwaths ops (q :: rest) = advisorySwaths ops rest := by
  simp [advisorySwaths, List.filterMap_cons, hq]

theorem advisorySwaths_cons_neg {P : Type} (ops : GeomOps P)
    (q : Int × List (Int × P)) (rest : List (Int × List (Int × P)))
    (hq : ¬(consecutiveHulls ops q.2).isEmpty = true) :
    advisorySwaths ops (q :: rest) =
      (q.1, ops.unary_union (consecutiveHulls ops q.2)) :: advisorySwaths ops rest := by
  simp [advisorySwaths, List.filterMap_cons, hq]

theorem windSwaths_cons_pos {P : Type} (ops : GeomOps P)
    (p : String × List (Int × List (Int × P)))
    (rest : List (String × List (Int × List (Int × P)))) (hp : p.2.isEmpty = true) :
    windSwathsFromIsotachs ops (p :: rest) = windSwathsFromIsotachs ops rest := by
  simp [windSwathsFromIsotachs, List.filterMap_cons, hp]

theorem windSwaths_cons_neg {P : Type} (ops : GeomOps P)
    (p : String × List (Int × List (Int × P)))
    (rest : List (String × List (Int × List (Int × P)))) (hp : ¬p.2.isEmpty = true) :
    windSwathsFromIsotachs ops (p :: rest) =
      (p.1, advisorySwaths ops p.2) :: windSwathsFromIsotachs ops rest := by
  simp [windSwathsFromIsotachs, List.filterMap_cons, hp]

theorem alookup_cons {K V : Type} [DecidableEq K] (p : K × V) (rest : List (K × V))
    (k : K) : alookup (p :: rest) k =
      if p.1 = k then some p.2 else alookup rest k := rfl

theorem alookup_windSwaths {P : Type} (ops : GeomOps P) :
    ∀ (iso : List (String × List (Int × List (Int × P)))) (adv : String)
      (ai : List (Int × List (Int × P))),
      (iso.map Prod.fst).Nodup → (adv, ai) ∈ iso → ai ≠ [] →
      alookup (windSwathsFromIsotachs ops iso) adv =
        some (advisorySwaths ops ai) := by
  intro iso
  induction iso with
  | nil => intro adv ai _ h _; exact absurd h (List.not_mem_nil _)
  | cons p rest ih =>
    intro adv ai hnd hmem hne
    have hnd' : (p.1 :: rest.map Prod.fst).Nodup := by simpa using hnd
    rcases List.mem_cons.mp hmem with heq | hmem'
    · have hk : adv = p.1 := congrArg Prod.fst heq
      have hv : ai = p.2 := congrArg Prod.snd heq
      rw [windSwaths_cons_neg ops p rest (by rw [← hv]; simpa [List.isEmpty_iff] using hne)]
      rw [alookup_cons, if_pos hk.symm, hv]
    · have hpadv : p.1 ≠ adv := by
        have h1 : adv ∈ rest.map Prod.fst :=
          List.mem_map.mpr ⟨(adv, ai), hmem', rfl⟩
        intro hc
        exact (List.nodup_cons.mp hnd').1 (hc ▸ h1)
      have ihh := ih adv ai (List.nodup_cons.mp hnd').2 hmem' hne
      by_cases hpe : p.2.isEmpty
      · rw [windSwaths_cons_pos ops p rest hpe]
        exact ihh
      · rw [windSwaths_cons_neg ops p rest hpe, alookup_cons, if_neg hpadv]
        exact ihh

theorem advisorySwaths_keys_sub {P : Type} (ops : GeomOps P) :
    ∀ (ai : List (Int × List (Int × P))) (c : Int),
      c ∈ (advisorySwaths ops ai).map Prod.fst → c ∈ ai.map Prod.fst := by
  intro ai
  induction ai with
  | nil => intro c h; simpa [advisorySwaths] using h
  | cons q rest ih =>
    intro c h
    by_cases hq : (consecutiveHulls ops q.2).isEmpty
    · rw [advisorySwaths_cons_pos ops q rest hq] at h
      exact List.mem_cons_of_mem _ (ih c h)
    · rw [advisorySwaths_cons_neg ops q rest hq, List.map_cons] at h
      rcases List.mem_cons.mp h with h' | h'
      · rw [List.map_cons]
        exact h' ▸ List.mem_cons_self _ _
      · exact List.mem_cons_of_mem _ (ih c h')

theorem notMem_advisorySwaths_single {P : Type} (ops : GeomOps P) :
    ∀ (ai : List (Int × List (Int × P))) (cyc : Int) (ti : List (Int × P)),
      (ai.map Prod.fst).Nodup → (cyc, ti) ∈ ai → ti.length = 1 →
      cyc ∉ (advisorySwaths ops ai).map Prod.fst := by
  intro ai
  induction ai with
  | nil => intro cyc ti _ h _; exact absurd h (List.not_mem_nil _)
  | cons q rest ih =>
    intro cyc ti hnd hmem hlen hcon
    have hnd' : (q.1 :: rest.map Prod.fst).Nodup := by simpa using hnd
    rcases List.mem_cons.mp hmem with heq | hmem'
    · have hk : cyc = q.1 := congrArg Prod.fst heq
      have hv : ti = q.2 := congrArg Prod.snd heq
      have hhe : (consecutiveHulls ops q.2).isEmpty = true := by
        rw [← hv]
        obtain ⟨a, hta⟩ := List.length_eq_one.mp hlen
        rw [hta]
        rfl
      rw [advisorySwaths_cons_pos ops q rest hhe] at hcon
      exact (List.nodup_cons.mp hnd').1 (hk ▸ advisorySwaths_keys_sub ops rest cyc hcon)
    · have hqk : q.1 ≠ cyc := by
        have h1 : cyc ∈ rest.map Prod.fst :=
          List.mem_map.mpr ⟨(cyc, ti), hmem', rfl⟩
        intro hc
        exact (List.nodup_cons.mp hnd').1 (hc ▸ h1)
      by_cases hq : (consecutiveHulls ops q.2).isEmpty
      · rw [advisorySwaths_cons_pos ops q rest hq] at hcon
        exact ih cyc ti (List.nodup_cons.mp hnd').2 hmem' hlen hcon
      · rw [advisorySwaths_cons_neg ops q rest hq, List.map_cons] at hcon
        rcases List.mem_cons.mp hcon with h' | h'
        · exact hqk h'.symm
        · exact ih cyc ti (List.nodup_cons.mp hnd').2 hmem' hlen h'

theorem alookup_advisorySwaths_pair {P : Type} (ops : GeomOps P)
    (hsingle : ∀ p : P, ops.unary_union [p] = p) :
    ∀ (ai : List (Int × List (Int × P))) (cyc t1 : Int) (p1 : P) (t2 : Int) (p2 : P),
      (ai.map Prod.fst).Nodup → (cyc, [(t1, p1), (t2, p2)]) ∈ ai →
      alookup (advisorySwaths ops ai) cyc =
        some (ops.convex_hull (ops.unary_union [p1, p2])) := by
  intro ai
  induction ai with
  | nil => intro cyc t1 p1 t2 p2 _ h; exact absurd h (List.not_mem_nil _)
  | cons q rest ih =>
    intro cyc t1 p1 t2 p2 hnd hmem
    have hnd' : (q.1 :: rest.map Prod.fst).Nodup := by simpa using hnd
    rcases List.mem_cons.mp hmem with heq | hmem'
    · have hk : cyc = q.1 := congrArg Prod.fst heq
      have hv : [(t1, p1), (t2, p2)] = q.2 := congrArg Prod.snd heq
      have hch : consecutiveHulls ops q.2 =
          [ops.convex_hull (ops.unary_union [p1, p2])] := by
        rw [← hv]
        rfl
      rw [advisorySwaths_cons_neg ops q rest (by rw [hch]; simp)]
      rw [alookup_cons, if_pos hk.symm, hch, hsingle]
    · have hqk : q.1 ≠ cyc := by
        have h1 : cyc ∈ rest.map Prod.fst :=
          List.mem_map.mpr ⟨(cyc, [(t1, p1), (t2, p2)]), hmem', rfl⟩
        intro hc
        exact (List.nodup_cons.mp hnd').1 (hc ▸ h1)
      have ihh := ih cyc t1 p1 t2 p2 (List.nodup_cons.mp hnd').2 hmem'
      by_cases hq : (consecutiveHulls ops q.2).isEmpty
      · rw [advisorySwaths_cons_pos ops q rest hq]
        exact ihh
      · rw [advisorySwaths_cons_neg ops q rest hq, alookup_cons, if_neg hqk]
        exact ihh

/-- C9.  For every (advisory, cycle) track of the isotach dictionary: a
track with exactly one isotach polygon contributes no swath (its cycle key
is absent), and a track with exactly two isotach polygons contributes
exactly one swath polygon, the convex hull of the union of the two
isotachs.  The hypothesis on `unary_union` is the shapely guarantee that
the union of a single polygon is the polygon itself; `wind_swaths` is
`windSwathsFromIsotachs` applied to the output of `isotachs`, whose
advisory and cycle keys are duplicate-free. -/
theorem C9_swath_degeneracy {P : Type} (ops : GeomOps P)
    (hsingle : ∀ p : P, ops.unary_union [p] = p)
    (iso : List (String × List (Int × List (Int × P))))
    (adv : String) (ai : List (Int × List (Int × P)))
    (hadv : (adv, ai) ∈ iso) (hnodupA : (iso.map Prod.fst).Nodup)
    (cyc : Int) (ti : List (Int × P)) (hc : (cyc, ti) ∈ ai)
    (hnodupC : (ai.map Prod.fst).Nodup) :
    alookup (windSwathsFromIsotachs ops iso) adv =
      some (advisorySwaths ops ai) ∧
    (ti.length = 1 → cyc ∉ (advisorySwaths ops ai).map Prod.fst) ∧
    (∀ t1 p1 t2 p2, ti = [(t1, p1), (t2, p2)] →
      alookup (advisorySwaths ops ai) cyc =
        some (ops.convex_hull (ops.unary_union [p1, p2]))) := by
  refine ⟨?_, ?_, ?_⟩
  · exact alookup_windSwaths ops iso adv ai hnodupA hadv
      (fun hnil => absurd (hnil ▸ hc) (List.not_mem_nil _))
  · intro hlen
    exact notMem_advisorySwaths_single ops ai cyc ti hnodupC hc hlen
  · intro t1 p1 t2 p2 hti
    exact alookup_advisorySwaths_pair ops hsingle ai cyc t1 p1 t2 p2 hnodupC
      (hti ▸ hc)

/-- Concrete polygon algebra on vertex lists: union is concatenation (so a
singleton union returns its polygon, as shapely does), the hull is the
identity. -/
def listOps : GeomOps (List ℚ) :=
  { mkPolygon := fun pts => pts.map Prod.fst
    unary_union := fun ps => ps.flatten
    isMultiPolygon := fun _ => false
    buffer := fun p _ => p
    convex_hull := fun p => p }

def C9ai : List (Int × List (Int × List ℚ)) :=
  [(0, [(0, [1])]), (100, [(0, [1]), (6, [2])])]

def C9iso : List (String × List (Int × List (Int × List ℚ))) := [("OFCL", C9ai)]

theorem C9_swath_degeneracy_witness :
    (alookup (windSwathsFromIsotachs listOps C9iso) "OFCL" =
      some (advisorySwaths listOps C9ai)) ∧
    (([(0, ([1] : List ℚ)), (6, [2])] : List (Int × List ℚ)).length = 1 →
      (100 : Int) ∉ (advisorySwaths listOps C9ai).map Prod.fst) ∧
    (∀ t1 p1 t2 p2,
      ([(0, ([1] : List ℚ)), (6, [2])] : List (Int × List ℚ)) = [(t1, p1), (t2, p2)] →
      alookup (advisorySwaths listOps C9ai) 100 =
        some (listOps.convex_hull (listOps.unary_union [p1, p2]))) :=
  C9_swath_degeneracy listOps (by intro p; simp [listOps]) C9iso "OFCL" C9ai
    (by decide) (by decide) 100 [(0, [1]), (6, [2])] (by decide) (by decide)
